import Mathlib

/-!
# Verification of the timeline-fusion / conversation-construction engine

Shallow embedding of `app/services/alignment_service.py` and
`app/services/metadata_service.py` (the VoiceIQ core pipeline), together with
proofs settling the frozen claims about it.

Modelling conventions:
* Python floats are modelled as rationals (`ℚ`); the arithmetic the code
  performs (additions, subtractions, divisions, comparisons, `min`/`max`) is
  exact over `ℚ`, which is the intended real-number semantics of the source.
  The single transcendental operation (`math.exp` inside the confidence
  score) is modelled over `ℝ` with `Real.exp`.
* Python strings are modelled as `List Char` (`PyStr`); `str.split()`,
  `str.strip()` and `" ".join` are modelled by the executable functions
  `pySplit`, `stripPy`, `joinSp` below.
* Python's `sorted(..., key=...)` is a stable sort; `List.insertionSort`
  with the non-strict key order inserts a new element in front of the
  elements equal to it that were already sorted, which yields exactly the
  stable behaviour, so it is used as the model of `sorted`.
* `round(x, 3)` is modelled by `round3`.  (Python rounds ties to even at the
  half-thousandth boundary while `round` rounds them up; no claim and no
  concrete input in this development sits on such a boundary.)
-/

/-- Python strings, modelled as lists of characters. -/
abbrev PyStr := List Char

/-- Whitespace test used by Python's `str.split()` / `str.strip()`. -/
def isSpacePy (c : Char) : Bool := c.isWhitespace

/-- Helper for `pySplit`: accumulates the current (reversed) word while
scanning the string. -/
def pySplitAux : List Char → List Char → List PyStr
  | [], cur => if cur = [] then [] else [cur.reverse]
  | c :: rest, cur =>
    if isSpacePy c then
      if cur = [] then pySplitAux rest [] else cur.reverse :: pySplitAux rest []
    else
      pySplitAux rest (c :: cur)

/-- Python's `str.split()` (no argument): split on runs of whitespace,
discarding empty pieces. -/
def pySplit (s : PyStr) : List PyStr := pySplitAux s []

/-- Python's `str.lstrip()`. -/
def lstripPy (s : PyStr) : PyStr := s.dropWhile isSpacePy

/-- Python's `str.rstrip()`. -/
def rstripPy (s : PyStr) : PyStr := (s.reverse.dropWhile isSpacePy).reverse

/-- Python's `str.strip()`. -/
def stripPy (s : PyStr) : PyStr := rstripPy (lstripPy s)

/-- `" ".join(ws)`: single-space concatenation. -/
def joinSp : List PyStr → PyStr
  | [] => []
  | [w] => w
  | w :: ws => w ++ ' ' :: joinSp ws

/-- A normalized recognition (ASR) segment, as produced by
`EnhancedAligner._extract_asr_segments`: `{start, end, text, avg_logprob,
no_speech_prob}`.  The Python field `end` is called `stop` here (`end` is a
Lean keyword). -/
structure AsrSeg where
  start : ℚ
  stop : ℚ
  text : PyStr
  avg_logprob : ℚ
  no_speech_prob : ℚ
  deriving DecidableEq, Repr

/-- A word interval produced by `EnhancedAligner._to_word_segments`:
`{start, end, word}`. -/
structure WordSeg where
  start : ℚ
  stop : ℚ
  word : PyStr
  deriving DecidableEq, Repr

instance : Inhabited WordSeg := ⟨⟨0, 0, []⟩⟩

/-- A diarization interval: `{start, end, speaker}`. -/
structure DiarSeg where
  start : ℚ
  stop : ℚ
  speaker : String
  deriving DecidableEq, Repr

/-- A raw aligned speaker segment, as produced by
`EnhancedAligner._align_words_to_diarization` and consumed/produced by
`EnhancedAligner._merge_blocks`: `{start, end, speaker, text}`. -/
structure RawSeg where
  start : ℚ
  stop : ℚ
  speaker : String
  text : PyStr
  deriving DecidableEq, Repr

instance : Inhabited RawSeg := ⟨⟨0, 0, "", []⟩⟩

/-- A final aligned speaker segment, after `EnhancedAligner.align` attaches
the confidence score and the gender placeholders. -/
structure FinalSeg where
  start : ℚ
  stop : ℚ
  speaker : String
  text : PyStr
  confidence : ℝ
  gender : Option String
  gender_confidence : Option ℚ

/-- A conversation turn, as produced by `build_conversation`. -/
structure Turn where
  start : ℚ
  stop : ℚ
  speaker : String
  speaker_raw : String
  text : PyStr
  deriving DecidableEq, Repr

/-- Key order used by `sorted(segments, key=lambda x: x["start"])` on raw
segments. -/
def leStartR (a b : RawSeg) : Prop := a.start ≤ b.start

/-- Key order for sorting word segments by `start`. -/
def leStartW (a b : WordSeg) : Prop := a.start ≤ b.start

/-- Key order for sorting diarization segments by `start`. -/
def leStartD (a b : DiarSeg) : Prop := a.start ≤ b.start

/-- Key order for sorting final segments by `start`. -/
def leStartF (a b : FinalSeg) : Prop := a.start ≤ b.start

instance : DecidableRel leStartR := fun a b => inferInstanceAs (Decidable (a.start ≤ b.start))
instance : DecidableRel leStartW := fun a b => inferInstanceAs (Decidable (a.start ≤ b.start))
instance : DecidableRel leStartD := fun a b => inferInstanceAs (Decidable (a.start ≤ b.start))
instance : DecidableRel leStartF := fun a b => inferInstanceAs (Decidable (a.start ≤ b.start))

instance : IsTotal RawSeg leStartR := ⟨fun a b => le_total a.start b.start⟩
instance : IsTrans RawSeg leStartR := ⟨fun _ _ _ h h' => le_trans h h'⟩
instance : IsTotal WordSeg leStartW := ⟨fun a b => le_total a.start b.start⟩
instance : IsTrans WordSeg leStartW := ⟨fun _ _ _ h h' => le_trans h h'⟩
instance : IsTotal DiarSeg leStartD := ⟨fun a b => le_total a.start b.start⟩
instance : IsTrans DiarSeg leStartD := ⟨fun _ _ _ h h' => le_trans h h'⟩
instance : IsTotal FinalSeg leStartF := ⟨fun a b => le_total a.start b.start⟩
instance : IsTrans FinalSeg leStartF := ⟨fun _ _ _ h h' => le_trans h h'⟩

section PipelineDefs

/-  `Rat.add`, `Rat.mul`, `Rat.sub`, `Rat.inv` are `@[irreducible]` in
Batteries, which blocks `decide`'s reduction on concrete rationals; the
kernel itself unfolds them fine.  Make them semireducible for the rest of
this development so that concrete runs of the executable model can be
checked by `decide`. -/
attribute [local semireducible] Rat.add Rat.mul Rat.sub Rat.inv

/-- `round(x, 3)`: round to three decimal places.  Defined via `Rat.floor`
so that it evaluates by kernel reduction; `round3_eq_round` connects it to
Mathlib's `round`. -/
def round3 (x : ℚ) : ℚ := (Rat.floor (x * 1000 + 1/2) : ℚ) / 1000

/-- `round3` is `round` (half-up) applied at three decimals. -/
theorem round3_eq_round (x : ℚ) : round3 x = (round (x * 1000) : ℚ) / 1000 := by
  rw [round_eq]; rfl

/-- `_overlap(a_start, a_end, b_start, b_end)` from the source:
`max(0.0, min(a_end, b_end) - max(a_start, b_start))`. -/
def overlapQ (aStart aEnd bStart bEnd : ℚ) : ℚ :=
  max 0 (min aEnd bEnd - max aStart bStart)

/-- `EnhancedAligner._to_word_segments`, restricted to one segment:
approximate word timings by uniformly slicing the segment duration.
Mirrors the source loop body: skip empty text, clamp the duration to the
epsilon `1e-6`, split into whitespace words, give each word an equal slice,
and force the last word's end to the segment's end. -/
def sliceSegment (seg : AsrSeg) : List WordSeg :=
  if seg.text = [] then []
  else
    let duration := max (seg.stop - seg.start) (1/1000000)
    let words := pySplit seg.text
    if words = [] then []
    else
      let n := words.length
      let wDur := duration / (n : ℚ)
      (List.range n).map (fun (i : ℕ) =>
        { start := seg.start + (i : ℚ) * wDur
          stop := if i = n - 1 then seg.stop else seg.start + ((i : ℚ) + 1) * wDur
          word := words.getD i [] })

/-- `EnhancedAligner._to_word_segments`: concatenation of the per-segment
word slicings, in segment order. -/
def toWordSegments (asr : List AsrSeg) : List WordSeg := asr.flatMap sliceSegment

/-- The overlap test from `EnhancedAligner._align_words_to_diarization`:
`not (w["end"] <= d_start or w["start"] >= d_end)`. -/
def overlapsWD (w : WordSeg) (d : DiarSeg) : Prop :=
  ¬(w.stop ≤ d.start ∨ d.stop ≤ w.start)

instance (w : WordSeg) (d : DiarSeg) : Decidable (overlapsWD w d) :=
  inferInstanceAs (Decidable (¬_))

/-- The loop of `EnhancedAligner._align_words_to_diarization` over the
(sorted) diarization segments: each diarization interval with at least one
overlapping word emits a raw aligned segment, the rest are skipped. -/
def w2dLoop (ws : List WordSeg) : List DiarSeg → List RawSeg
  | [] => []
  | d :: rest =>
    let words := ws.filter (fun w => decide (overlapsWD w d))
    if words = [] then w2dLoop ws rest
    else
      { start := round3 d.start, stop := round3 d.stop, speaker := d.speaker,
        text := stripPy (joinSp (words.map WordSeg.word)) } :: w2dLoop ws rest

/-- `EnhancedAligner._align_words_to_diarization`. -/
def alignWordsToDiarization (ws : List WordSeg) (ds : List DiarSeg) : List RawSeg :=
  if ws = [] ∨ ds = [] then []
  else w2dLoop (ws.insertionSort leStartW) (ds.insertionSort leStartD)

/-- The merge test of `EnhancedAligner._merge_blocks` (the source's
`max_gap` parameter is only ever used at its default `0.75`). -/
def mergeCond (last seg : RawSeg) : Prop :=
  seg.speaker = last.speaker ∧ 0 ≤ seg.start - last.stop ∧ seg.start - last.stop ≤ 3/4

instance (last seg : RawSeg) : Decidable (mergeCond last seg) :=
  inferInstanceAs (Decidable (_ ∧ _))

/-- Merging a candidate into the previous kept segment:
`last["end"] = seg["end"]; last["text"] = (last["text"] + " " + seg["text"]).strip()`. -/
def mergeInto (last seg : RawSeg) : RawSeg :=
  { last with stop := seg.stop, text := stripPy (last.text ++ ' ' :: seg.text) }

/-- The left-to-right scan of `EnhancedAligner._merge_blocks`, with `last`
the currently open kept segment (`merged[-1]` in the source). -/
def mergeLoop : RawSeg → List RawSeg → List RawSeg
  | last, [] => [last]
  | last, seg :: rest =>
    if mergeCond last seg then mergeLoop (mergeInto last seg) rest
    else last :: mergeLoop seg rest

/-- `EnhancedAligner._merge_blocks`. -/
def mergeBlocks (segments : List RawSeg) : List RawSeg :=
  match segments.insertionSort leStartR with
  | [] => []
  | a :: rest => mergeLoop a rest

/-- The scan of `_best_diar_for_asr`: keep the first segment achieving the
running-maximum positive overlap (the comparison is strict, so ties keep
the earlier find). -/
def bestLoop (s e : ℚ) : List AsrSeg → Option AsrSeg → ℚ → Option AsrSeg
  | [], best, _ => best
  | a :: rest, best, bestOv =>
    let ov := overlapQ s e a.start a.stop
    if bestOv < ov then bestLoop s e rest (some a) ov
    else bestLoop s e rest best bestOv

/-- `_best_diar_for_asr({"start": s, "end": e}, asr)`: the recognition
segment overlapping `[s, e]` the most (`none` when no overlap is positive). -/
def bestDiarForAsr (s e : ℚ) (asr : List AsrSeg) : Option AsrSeg :=
  bestLoop s e asr none 0

/-- `_confidence_from_whisper`: `clamp(sigmoid(avg_logprob) * (1 -
no_speech_prob), 0, 1)`.  `math.exp` forces this single definition (and
everything mentioning it) over `ℝ`. -/
noncomputable def confidenceFromWhisper (seg : AsrSeg) : ℝ :=
  max 0 (min 1 ((1 / (1 + Real.exp (-(seg.avg_logprob : ℝ)))) * (1 - (seg.no_speech_prob : ℝ))))

/-- The per-merged-segment confidence attachment in `EnhancedAligner.align`:
look up the recognition segment best overlapping `[seg.start, seg.end]`,
take its Whisper confidence (`0.5` if none overlaps positively), and set
the gender placeholders to `None`. -/
noncomputable def attachConfidence (asr : List AsrSeg) (seg : RawSeg) : FinalSeg :=
  { start := seg.start, stop := seg.stop, speaker := seg.speaker, text := seg.text,
    confidence :=
      match bestDiarForAsr seg.start seg.stop asr with
      | some b => confidenceFromWhisper b
      | none => 1/2,
    gender := none, gender_confidence := none }

/-- `EnhancedAligner.align`, starting from the normalized recognition
segments (the output of `_extract_asr_segments`) and the diarization list:
slice words, map them onto diarization windows, merge blocks, and attach
the confidence score and gender placeholders.  The source returns
`{"speaker_segments": merged}`; the wrapper dict is dropped here.  All
failure modes in the source are soft (logged, not raised), matching this
total function. -/
noncomputable def align (asr : List AsrSeg) (diar : List DiarSeg) : List FinalSeg :=
  if asr = [] ∨ diar = [] then []
  else
    let words := toWordSegments asr
    let raw := alignWordsToDiarization words diar
    let merged := mergeBlocks raw
    merged.map (attachConfidence asr)

/-- `time_map[spk] = time_map.get(spk, 0) + dur`, on an association list
kept in Python-dict (first-insertion) order. -/
def bump : List (String × ℚ) → String → ℚ → List (String × ℚ)
  | [], k, v => [(k, v)]
  | (k', x) :: t, k, v => if k' = k then (k', x + v) :: t else (k', x) :: bump t k v

/-- Total speaking time per speaker over a segment list, in first-occurrence
order (the `time_map` of `build_conversation`). -/
def timeMap (segs : List FinalSeg) : List (String × ℚ) :=
  segs.foldl (fun m seg => bump m seg.speaker (seg.stop - seg.start)) []

/-- The key order of `sorted(time_map.items(), key=lambda x: x[1],
reverse=True)`: descending by total speaking time, stable. -/
def leTimeDesc (p q : String × ℚ) : Prop := q.2 ≤ p.2

instance : DecidableRel leTimeDesc := fun p q => inferInstanceAs (Decidable (q.2 ≤ p.2))
instance : IsTotal (String × ℚ) leTimeDesc := ⟨fun p q => le_total q.2 p.2⟩
instance : IsTrans (String × ℚ) leTimeDesc := ⟨fun _ _ _ h h' => le_trans h' h⟩

/-- The spec-level role name `PRIMARY`; the source spells it `"CUSTOMER"`. -/
def PRIMARY : String := "CUSTOMER"

/-- The spec-level role name `SECONDARY`; the source spells it `"AGENT"`. -/
def SECONDARY : String := "AGENT"

/-- The role table of `build_conversation`, computed from the (already
sorted) segment list: the two speakers with the largest total speaking time
get `PRIMARY`/`SECONDARY` (`"CUSTOMER"`/`"AGENT"` in the source); everyone
else is absent from the table and later falls back to the raw label. -/
def rolesFor (segs : List FinalSeg) : List (String × String) :=
  match (timeMap segs).insertionSort leTimeDesc with
  | c :: a :: _ => [(c.1, PRIMARY), (a.1, SECONDARY)]
  | [c] => [(c.1, PRIMARY)]
  | [] => []

/-- Opening a new conversation turn from a segment:
`roles.get(spk, spk)` picks the role, falling back to the raw label. -/
def mkTurn (roles : List (String × String)) (seg : FinalSeg) : Turn :=
  { start := seg.start, stop := seg.stop,
    speaker := (roles.lookup seg.speaker).getD seg.speaker,
    speaker_raw := seg.speaker, text := seg.text }

/-- The turn-building scan of `build_conversation`, with `cur` the open
turn (`current` in the source). -/
def convLoop (roles : List (String × String)) : Turn → List FinalSeg → List Turn
  | cur, [] => [cur]
  | cur, seg :: rest =>
    if cur.speaker_raw = seg.speaker ∧ seg.start - cur.stop ≤ 3/4 then
      convLoop roles { cur with stop := seg.stop, text := cur.text ++ ' ' :: seg.text } rest
    else
      cur :: convLoop roles (mkTurn roles seg) rest

/-- The timeline part of `build_conversation`, taking the aligned
`speaker_segments` list it operates on. -/
def buildConversationSegments (segments : List FinalSeg) : List Turn :=
  match segments.insertionSort leStartF with
  | [] => []
  | s :: rest =>
    let roles := rolesFor (segments.insertionSort leStartF)
    convLoop roles (mkTurn roles s) rest

/-- `build_conversation(asr_result, diarization_result)`. -/
noncomputable def build_conversation (asr : List AsrSeg) (diar : List DiarSeg) : List Turn :=
  buildConversationSegments (align asr diar)

/-- The per-speaker accumulator of
`MetadataExtractor.compute_speaker_stats` (the defaultdict entry before the
derived ratios are attached). -/
structure SpeakerAcc where
  total_speaking_time : ℚ
  segment_count : ℕ
  total_words : ℕ
  longest_monologue : ℚ
  first_spoke_at : Option ℚ
  last_spoke_at : Option ℚ
  deriving DecidableEq, Repr

/-- The zero accumulator (the defaultdict initializer). -/
def accInit : SpeakerAcc := ⟨0, 0, 0, 0, none, none⟩

/-- One loop iteration of `compute_speaker_stats` on one speaker's
accumulator. -/
def accUpd (b : SpeakerAcc) (seg : FinalSeg) : SpeakerAcc :=
  let dur := seg.stop - seg.start
  let wc := (pySplit seg.text).length
  { total_speaking_time := b.total_speaking_time + dur
    segment_count := b.segment_count + 1
    total_words := b.total_words + wc
    longest_monologue := max b.longest_monologue dur
    first_spoke_at := some (match b.first_spoke_at with | none => seg.start | some x => min x seg.start)
    last_spoke_at := some (match b.last_spoke_at with | none => seg.stop | some x => max x seg.stop) }

/-- defaultdict-style update of the per-speaker accumulator table
(insertion order preserved, as for a Python dict). -/
def statsBump : List (String × SpeakerAcc) → String → FinalSeg → List (String × SpeakerAcc)
  | [], k, seg => [(k, accUpd accInit seg)]
  | (k', b) :: t, k, seg =>
    if k' = k then (k', accUpd b seg) :: t else (k', b) :: statsBump t k seg

/-- Per-speaker statistics record of `compute_speaker_stats`.  The source
fields `speaking_ratio` and `word_ratio` are spelled `speaking_time_share`
and `word_share` here. -/
structure SpeakerStats where
  total_speaking_time : ℚ
  segment_count : ℕ
  total_words : ℕ
  longest_monologue : ℚ
  first_spoke_at : Option ℚ
  last_spoke_at : Option ℚ
  avg_segment_length : ℚ
  wpm : ℚ
  speaking_time_share : ℚ
  word_share : ℚ
  deriving DecidableEq, Repr

/-- `MetadataExtractor.compute_speaker_stats`. -/
def computeSpeakerStats (ss : List FinalSeg) : List (String × SpeakerStats) :=
  match ss with
  | [] => []
  | _ :: _ =>
    let base := ss.foldl (fun m seg => statsBump m seg.speaker seg) []
    let totalTime := (base.map (fun p => p.2.total_speaking_time)).sum
    let totalWords := (base.map (fun p => p.2.total_words)).sum
    base.map (fun p =>
      (p.1,
        { total_speaking_time := p.2.total_speaking_time
          segment_count := p.2.segment_count
          total_words := p.2.total_words
          longest_monologue := p.2.longest_monologue
          first_spoke_at := p.2.first_spoke_at
          last_spoke_at := p.2.last_spoke_at
          avg_segment_length := p.2.total_speaking_time / ((max p.2.segment_count 1 : ℕ) : ℚ)
          wpm := if (0 : ℚ) < p.2.total_speaking_time
                 then (p.2.total_words : ℚ) / p.2.total_speaking_time * 60 else 0
          speaking_time_share := p.2.total_speaking_time / max totalTime 1
          word_share := (p.2.total_words : ℚ) / max (totalWords : ℚ) 1 }))

/-- Whole-conversation statistics record of `compute_conversation_stats`. -/
structure ConvStats where
  total_duration : ℚ
  total_segments : ℕ
  total_words : ℕ
  avg_turn_length : ℚ
  speaker_count : ℕ
  conversation_start : ℚ
  conversation_end : ℚ
  deriving DecidableEq, Repr

/-- `MetadataExtractor.compute_conversation_stats`: returns `none` for the
source's empty-dict (`{}`) result on empty inputs.  Note the conversation
bounds are taken from the positionally first and last diarization entries,
with no sorting and no min/max. -/
def computeConversationStats (ss : List FinalSeg) (ds : List DiarSeg) : Option ConvStats :=
  match ss, ds with
  | [], _ => none
  | _ :: _, [] => none
  | s0 :: ss', d0 :: ds' =>
    let startTime := d0.start
    let endTime := (ds'.getLastD d0).stop
    let totalDuration := endTime - startTime
    let segs := s0 :: ss'
    let totalWords := (segs.map (fun s => (pySplit s.text).length)).sum
    some { total_duration := totalDuration
           total_segments := segs.length
           total_words := totalWords
           avg_turn_length := totalDuration / ((max segs.length 1 : ℕ) : ℚ)
           speaker_count := (segs.map (fun s => s.speaker)).dedup.length
           conversation_start := startTime
           conversation_end := endTime }

example : pySplit "a b".toList = [['a'], ['b']] := by decide
example : stripPy "  hi  ".toList = "hi".toList := by decide
example : joinSp [['a'], ['b']] = "a b".toList := by decide
example : round3 (25001/10000) = 5/2 := by decide
example :
    sliceSegment ⟨0, 1, "a b".toList, -1, 0⟩ =
      [⟨0, 1/2, ['a']⟩, ⟨1/2, 1, ['b']⟩] := by decide
example :
    mergeBlocks [⟨0, 1, "S0", ['a']⟩, ⟨1, 2, "S0", ['b']⟩] =
      [⟨0, 2, "S0", "a b".toList⟩] := by decide
example :
    (computeConversationStats [⟨0, 1, "S", "hi there".toList, 0, none, none⟩]
        [⟨10, 11, "A"⟩, ⟨0, 1, "B"⟩]).map ConvStats.total_duration = some (-9) := by decide

/- ------------------------------------------------------------------ -/
/- Claim C1: word slicing partitions the segment span.                 -/
/- ------------------------------------------------------------------ -/

/-- The per-segment property asserted by claim C1: the emitted word
intervals number exactly the whitespace word count of the text and — when
there are any — they are well-formed, contiguous (hence non-overlapping),
anchored at the segment's start and end, and their union is exactly
`[start, end]`. -/
def wordSliceOk (seg : AsrSeg) : Prop :=
  (sliceSegment seg).length = (pySplit seg.text).length ∧
  (sliceSegment seg ≠ [] →
    (∀ i < (sliceSegment seg).length,
        ((sliceSegment seg).getD i default).start ≤ ((sliceSegment seg).getD i default).stop) ∧
    (∀ i < (sliceSegment seg).length - 1,
        ((sliceSegment seg).getD i default).stop = ((sliceSegment seg).getD (i+1) default).start) ∧
    ((sliceSegment seg).getD 0 default).start = seg.start ∧
    ((sliceSegment seg).getD ((sliceSegment seg).length - 1) default).stop = seg.stop ∧
    (⋃ i ∈ Finset.range (sliceSegment seg).length,
        Set.Icc ((sliceSegment seg).getD i default).start
          ((sliceSegment seg).getD i default).stop)
      = Set.Icc seg.start seg.stop)

theorem getD_range_map {α : Type} [Inhabited α] (f : ℕ → α) {n i : ℕ} (hi : i < n) :
    ((List.range n).map f).getD i default = f i := by
  rw [List.getD_eq_getElem?_getD, List.getElem?_map, List.getElem?_range hi]
  rfl

/-- The union of `n` consecutive slices of width `δ` starting at `s` is the
interval from `s` to `s + n * δ`. -/
theorem biUnion_Icc_slices (s δ : ℚ) (hδ : 0 ≤ δ) :
    ∀ n : ℕ, 0 < n →
      (⋃ i ∈ Finset.range n, Set.Icc (s + (i : ℚ) * δ) (s + ((i : ℚ) + 1) * δ))
        = Set.Icc s (s + (n : ℚ) * δ) := by
  intro n
  induction n with
  | zero => omega
  | succ m ih =>
    intro _
    rcases Nat.eq_zero_or_pos m with hm | hm
    · subst hm
      rw [Finset.range_one, Finset.set_biUnion_singleton]
      norm_num
    · have hmd : (0 : ℚ) ≤ (m : ℚ) * δ := mul_nonneg (by positivity) hδ
      rw [Finset.range_succ, Finset.set_biUnion_insert, ih hm, Set.union_comm,
        Set.Icc_union_Icc_eq_Icc (by linarith) (by linarith)]
      push_cast
      ring_nf

theorem sliceSegment_eq_map (seg : AsrSeg) (ht : seg.text ≠ [])
    (hw : pySplit seg.text ≠ []) (hε : (1 : ℚ)/1000000 ≤ seg.stop - seg.start) :
    sliceSegment seg =
      (List.range (pySplit seg.text).length).map (fun (i : ℕ) =>
        { start := seg.start + (i : ℚ) * ((seg.stop - seg.start) / ((pySplit seg.text).length : ℚ))
          stop := if i = (pySplit seg.text).length - 1 then seg.stop
                  else seg.start + ((i : ℚ) + 1) *
                    ((seg.stop - seg.start) / ((pySplit seg.text).length : ℚ))
          word := (pySplit seg.text).getD i [] }) := by
  rw [sliceSegment, if_neg ht]
  simp only [if_neg hw]
  rw [max_eq_left hε]

/-- Claim C1, amended: for a normalized segment whose duration is at least
the slicing epsilon `1e-6` (so the `max(end - start, 1e-6)` clamp in the
source is inactive), the word slicing satisfies `wordSliceOk`: exactly one
interval per whitespace word, contiguous, non-overlapping, starting at the
segment's start, ending exactly at its end, and covering
`[start, end]` exactly. -/
theorem c1_word_slice_partition (seg : AsrSeg)
    (hε : (1 : ℚ)/1000000 ≤ seg.stop - seg.start) : wordSliceOk seg := by
  by_cases ht : seg.text = []
  · have h0 : sliceSegment seg = [] := by rw [sliceSegment, if_pos ht]
    have h1 : pySplit seg.text = [] := by rw [ht]; rfl
    exact ⟨by rw [h0, h1]; rfl, fun h => absurd h0 h⟩
  by_cases hw : pySplit seg.text = []
  · have h0 : sliceSegment seg = [] := by
      rw [sliceSegment, if_neg ht]; simp only [if_pos hw]
    exact ⟨by rw [h0, hw]; rfl, fun h => absurd h0 h⟩
  have hmap := sliceSegment_eq_map seg ht hw hε
  set n := (pySplit seg.text).length with hn
  have hn0 : 0 < n := List.length_pos.mpr hw
  have hnQ : (0 : ℚ) < (n : ℚ) := by exact_mod_cast hn0
  set s := seg.start with hs
  set e := seg.stop with he'
  set δ := (e - s) / (n : ℚ) with hδdef
  have hδ0 : (0 : ℚ) ≤ δ := div_nonneg (by linarith) (le_of_lt hnQ)
  have hne : e = s + (n : ℚ) * δ := by
    rw [hδdef, mul_div_cancel₀ _ (ne_of_gt hnQ)]
    ring
  have hlen : (sliceSegment seg).length = n := by rw [hmap]; simp
  have hgetD : ∀ i, i < n → (sliceSegment seg).getD i default =
      { start := s + (i : ℚ) * δ
        stop := if i = n - 1 then e else s + ((i : ℚ) + 1) * δ
        word := (pySplit seg.text).getD i [] } := by
    intro i hi
    rw [hmap, getD_range_map _ hi]
  have hcast : ∀ i, i < n → i = n - 1 → ((i : ℚ) + 1) = (n : ℚ) := by
    intro i _ hi1
    subst hi1
    have : ((n - 1 : ℕ) : ℚ) = (n : ℚ) - 1 := by
      rw [Nat.cast_sub hn0]; norm_num
    rw [this]; ring
  have hstop : ∀ i, i < n →
      ((sliceSegment seg).getD i default).stop = s + ((i : ℚ) + 1) * δ := by
    intro i hi
    rw [hgetD i hi]
    by_cases hlast : i = n - 1
    · simp only [if_pos hlast]
      rw [hcast i hi hlast, ← hne]
    · simp only [if_neg hlast]
  have hstart : ∀ i, i < n →
      ((sliceSegment seg).getD i default).start = s + (i : ℚ) * δ := by
    intro i hi
    rw [hgetD i hi]
  refine ⟨hlen, fun _ => ⟨?_, ?_, ?_, ?_, ?_⟩⟩
  · intro i hi
    rw [hlen] at hi
    rw [hstart i hi, hstop i hi]
    nlinarith [hδ0]
  · intro i hi
    rw [hlen] at hi
    have hi1 : i < n := by omega
    have hi2 : i + 1 < n := by omega
    rw [hstop i hi1, hstart (i+1) hi2]
    push_cast
    ring
  · rw [hstart 0 hn0]
    norm_num
  · rw [hlen]
    have h1 : n - 1 < n := by omega
    rw [hgetD (n-1) h1]
    simp
  · rw [hlen]
    have hcong : (⋃ i ∈ Finset.range n,
        Set.Icc ((sliceSegment seg).getD i default).start
          ((sliceSegment seg).getD i default).stop)
        = ⋃ i ∈ Finset.range n, Set.Icc (s + (i : ℚ) * δ) (s + ((i : ℚ) + 1) * δ) := by
      refine Set.iUnion₂_congr ?_
      intro i hi
      rw [hstart i (Finset.mem_range.mp hi), hstop i (Finset.mem_range.mp hi)]
    rw [hcong, biUnion_Icc_slices s δ hδ0 n hn0, ← hne]

/-- Witness for C1 (amended): a two-word segment of duration `1`. -/
theorem c1_word_slice_partition_witness :
    (1 : ℚ)/1000000 ≤ (AsrSeg.stop ⟨0, 1, "a b".toList, -1, 0⟩ : ℚ)
        - (AsrSeg.start ⟨0, 1, "a b".toList, -1, 0⟩ : ℚ) ∧
      wordSliceOk ⟨0, 1, "a b".toList, -1, 0⟩ :=
  ⟨by decide, c1_word_slice_partition ⟨0, 1, "a b".toList, -1, 0⟩ (by decide)⟩

/-- Counterexample to C1 as stated: the degenerate (but valid, since
`start ≤ end` and the text is non-empty) segment `{start: 0, end: 0,
text: "a b"}` hits the `1e-6` duration clamp; the second word interval is
`[5e-7, 0]`, which is inverted, so the emitted intervals are not a
partition of `[0, 0]`. -/
theorem c1_word_slice_partition_counterexample :
    (AsrSeg.start ⟨0, 0, "a b".toList, -1, 0⟩ : ℚ) ≤ AsrSeg.stop ⟨0, 0, "a b".toList, -1, 0⟩ ∧
      ("a b".toList : PyStr) ≠ [] ∧
      ¬ wordSliceOk ⟨0, 0, "a b".toList, -1, 0⟩ := by
  refine ⟨by decide, by decide, fun h => ?_⟩
  have h2 := (h.2 (by decide)).1 1 (by decide)
  exact absurd h2 (by decide)

/- ------------------------------------------------------------------ -/
/- String lemmas: when `strip` is the identity.                        -/
/- ------------------------------------------------------------------ -/

theorem lstripPy_cons_of_nonspace {c : Char} (t : PyStr) (hc : isSpacePy c = false) :
    lstripPy (c :: t) = c :: t := by
  simp [lstripPy, List.dropWhile_cons, hc]

theorem length_lstripPy_le (s : PyStr) : (lstripPy s).length ≤ s.length :=
  (List.dropWhile_sublist _).length_le

theorem length_rstripPy_le (s : PyStr) : (rstripPy s).length ≤ s.length := by
  unfold rstripPy
  rw [List.length_reverse]
  calc (List.dropWhile isSpacePy s.reverse).length
      ≤ s.reverse.length := (List.dropWhile_sublist _).length_le
    _ = s.length := List.length_reverse s

theorem lstripPy_eq_self_of_length {s : PyStr} (h : s.length ≤ (lstripPy s).length) :
    lstripPy s = s :=
  (List.dropWhile_sublist _).eq_of_length (le_antisymm (length_lstripPy_le s) h)

/-- If `strip` leaves a string unchanged then so do `lstrip` and `rstrip`. -/
theorem stripPy_parts {s : PyStr} (h : stripPy s = s) :
    lstripPy s = s ∧ rstripPy s = s := by
  have h1 : s.length ≤ (stripPy s).length := by rw [h]
  have h2 : (stripPy s).length ≤ (lstripPy s).length := length_rstripPy_le _
  have h3 : lstripPy s = s := lstripPy_eq_self_of_length (le_trans h1 h2)
  refine ⟨h3, ?_⟩
  have h4 : stripPy s = rstripPy s := by rw [stripPy, h3]
  rw [← h4, h]

theorem head_nonspace_of_lstrip {c : Char} {t : PyStr} (h : lstripPy (c :: t) = c :: t) :
    isSpacePy c = false := by
  by_contra hcc
  have hc' : isSpacePy c = true := by revert hcc; cases isSpacePy c <;> simp
  have hd : lstripPy (c :: t) = List.dropWhile isSpacePy t := by
    simp [lstripPy, List.dropWhile_cons, hc']
  rw [h] at hd
  have hlen := (List.dropWhile_sublist (l := t) isSpacePy).length_le
  rw [← hd] at hlen
  simp at hlen

theorem rstripPy_eq_self_rev {s : PyStr} :
    rstripPy s = s ↔ lstripPy s.reverse = s.reverse := by
  unfold rstripPy lstripPy
  constructor
  · intro h
    have h' := congrArg List.reverse h
    rwa [List.reverse_reverse] at h'
  · intro h
    rw [h, List.reverse_reverse]

/-- A non-empty all-non-whitespace token is unchanged by `strip`. -/
theorem stripPy_eq_self_of_nospace {w : PyStr} (h0 : w ≠ [])
    (h : ∀ c ∈ w, isSpacePy c = false) : stripPy w = w := by
  obtain ⟨c, t, rfl⟩ := List.exists_cons_of_ne_nil h0
  have hl : lstripPy (c :: t) = c :: t := lstripPy_cons_of_nonspace t (h c (by simp))
  rw [stripPy, hl, rstripPy_eq_self_rev]
  obtain ⟨d, r, hdr⟩ := List.exists_cons_of_ne_nil (l := (c :: t).reverse) (by simp)
  rw [hdr]
  refine lstripPy_cons_of_nonspace _ (h d ?_)
  have hmem : d ∈ (c :: t).reverse := by rw [hdr]; exact List.mem_cons_self d r
  exact List.mem_reverse.mp hmem

/-- Joining two strip-invariant non-empty strings with a space is again
strip-invariant. -/
theorem stripPy_append_word {a b : PyStr} (ha0 : a ≠ []) (hb0 : b ≠ [])
    (ha : stripPy a = a) (hb : stripPy b = b) :
    stripPy (a ++ ' ' :: b) = a ++ ' ' :: b := by
  obtain ⟨hal, _⟩ := stripPy_parts ha
  obtain ⟨_, hbr⟩ := stripPy_parts hb
  obtain ⟨c, t, rfl⟩ := List.exists_cons_of_ne_nil ha0
  have hc := head_nonspace_of_lstrip hal
  have hl : lstripPy ((c :: t) ++ ' ' :: b) = (c :: t) ++ ' ' :: b :=
    lstripPy_cons_of_nonspace _ hc
  rw [stripPy, hl, rstripPy_eq_self_rev]
  have hbrev := rstripPy_eq_self_rev.mp hbr
  obtain ⟨d, r, hdr⟩ := List.exists_cons_of_ne_nil (l := b.reverse) (by simpa using hb0)
  rw [hdr] at hbrev
  have hd := head_nonspace_of_lstrip hbrev
  have hrev : ((c :: t) ++ ' ' :: b).reverse = d :: (r ++ ' ' :: (c :: t).reverse) := by
    rw [List.reverse_append]
    simp [hdr]
  rw [hrev, lstripPy_cons_of_nonspace _ hd]

theorem joinSp_ne_nil {ws : List PyStr} (h0 : ws ≠ []) (h : ∀ w ∈ ws, w ≠ []) :
    joinSp ws ≠ [] := by
  match ws with
  | [w] => simpa [joinSp] using h w (by simp)
  | w :: v :: t => simp [joinSp]

/-- The single-space join of non-empty whitespace-free tokens is
strip-invariant. -/
theorem stripPy_joinSp : ∀ (ws : List PyStr), ws ≠ [] →
    (∀ w ∈ ws, w ≠ [] ∧ ∀ c ∈ w, isSpacePy c = false) →
    stripPy (joinSp ws) = joinSp ws
  | [], h, _ => absurd rfl h
  | [w], _, h => by
    simpa [joinSp] using
      stripPy_eq_self_of_nospace (h w (by simp)).1 (h w (by simp)).2
  | w :: v :: t, _, h => by
    have ih := stripPy_joinSp (v :: t) (by simp) (fun x hx => h x (by simp [hx]))
    show stripPy (w ++ ' ' :: joinSp (v :: t)) = w ++ ' ' :: joinSp (v :: t)
    exact stripPy_append_word (h w (by simp)).1
      (joinSp_ne_nil (by simp) (fun x hx => (h x (by simp [hx])).1))
      (stripPy_eq_self_of_nospace (h w (by simp)).1 (h w (by simp)).2) ih

/- ------------------------------------------------------------------ -/
/- Claim C2: the speaker mapper emits exactly the overlapped windows.  -/
/- ------------------------------------------------------------------ -/

theorem w2dLoop_eq_filterMap (ws' : List WordSeg)
    (hw' : ∀ w ∈ ws', w.word ≠ [] ∧ ∀ c ∈ w.word, isSpacePy c = false)
    (ds' : List DiarSeg) :
    w2dLoop ws' ds' = ds'.filterMap (fun d =>
      if ws'.filter (fun w => decide (overlapsWD w d)) = [] then none
      else some { start := round3 d.start, stop := round3 d.stop, speaker := d.speaker,
                  text := joinSp ((ws'.filter (fun w => decide (overlapsWD w d))).map
                    WordSeg.word) }) := by
  induction ds' with
  | nil => rfl
  | cons d rest ih =>
    simp only [w2dLoop, List.filterMap_cons]
    by_cases hcase : ws'.filter (fun w => decide (overlapsWD w d)) = []
    · rw [if_pos hcase, if_pos hcase]
      exact ih
    · rw [if_neg hcase, if_neg hcase]
      rw [ih]
      have htokens : ∀ x ∈ (ws'.filter (fun w => decide (overlapsWD w d))).map WordSeg.word,
          x ≠ [] ∧ ∀ c ∈ x, isSpacePy c = false := by
        intro x hx
        obtain ⟨w, hwmem, rfl⟩ := List.mem_map.mp hx
        exact hw' w (List.mem_filter.mp hwmem).1
      have hne : (ws'.filter (fun w => decide (overlapsWD w d))).map WordSeg.word ≠ [] := by
        simpa using hcase
      rw [stripPy_joinSp _ hne htokens]

/-- Claim C2: for word intervals carrying non-empty whitespace-free word
tokens (as `WordTimeEstimator` produces), the speaker mapper's output is
exactly: for every diarization interval in sorted order, a segment is
emitted iff some word interval overlaps it (`NOT (w.end ≤ d.start OR
w.start ≥ d.end)`), carrying the speaker label, the 3-decimal-rounded
bounds, and the single-space concatenation of the overlapping words in
time order; non-overlapped intervals are skipped entirely. -/
theorem c2_speaker_mapper (ws : List WordSeg) (ds : List DiarSeg)
    (hw : ∀ w ∈ ws, w.word ≠ [] ∧ ∀ c ∈ w.word, isSpacePy c = false) :
    alignWordsToDiarization ws ds =
      (ds.insertionSort leStartD).filterMap (fun d =>
        if (ws.insertionSort leStartW).filter (fun w => decide (overlapsWD w d)) = [] then none
        else some { start := round3 d.start, stop := round3 d.stop, speaker := d.speaker,
                    text := joinSp (((ws.insertionSort leStartW).filter
                      (fun w => decide (overlapsWD w d))).map WordSeg.word) }) := by
  by_cases hws : ws = []
  · subst hws
    rw [alignWordsToDiarization, if_pos (Or.inl rfl)]
    show ([] : List RawSeg) = _
    induction ds.insertionSort leStartD with
    | nil => rfl
    | cons d rest ih => simp
  by_cases hds : ds = []
  · subst hds
    rw [alignWordsToDiarization, if_pos (Or.inr rfl)]
    rfl
  rw [alignWordsToDiarization, if_neg (by simp [hws, hds])]
  exact w2dLoop_eq_filterMap _
    (fun w hw'' => hw w ((List.perm_insertionSort leStartW ws).mem_iff.mp hw'')) _

/-- Witness for C2: one word over two diarization windows, one overlapped
and one not. -/
theorem c2_speaker_mapper_witness :
    (∀ w ∈ [(⟨0, 1, "hi".toList⟩ : WordSeg)], w.word ≠ [] ∧
        ∀ c ∈ w.word, isSpacePy c = false) ∧
      alignWordsToDiarization [⟨0, 1, "hi".toList⟩]
          [⟨0, 1, "S0"⟩, ⟨2, 3, "S1"⟩] =
        ([⟨0, 1, "S0"⟩, ⟨2, 3, "S1"⟩].insertionSort leStartD).filterMap (fun d =>
          if ([(⟨0, 1, "hi".toList⟩ : WordSeg)].insertionSort leStartW).filter
              (fun w => decide (overlapsWD w d)) = [] then none
          else some { start := round3 d.start, stop := round3 d.stop, speaker := d.speaker,
                      text := joinSp ((([(⟨0, 1, "hi".toList⟩ : WordSeg)].insertionSort
                        leStartW).filter (fun w => decide (overlapsWD w d))).map
                        WordSeg.word) }) :=
  ⟨by decide, c2_speaker_mapper _ _ (by decide)⟩

/- ------------------------------------------------------------------ -/
/- Claim C3: zero-gap same-speaker pairs merge into the joint span.    -/
/- ------------------------------------------------------------------ -/

/-- Claim C3: two well-formed raw segments with the same speaker label and
a gap of exactly `0` merge into one segment spanning
`[min(start), max(end)]` whose text is the first text, a space, then the
second text.  The strip-invariance hypotheses express that the texts are
raw SpeakerMapper outputs (non-empty, no surrounding whitespace). -/
theorem c3_zero_gap_merge (a b : RawSeg) (hspk : a.speaker = b.speaker)
    (hgap : b.start - a.stop = 0) (ha : a.start ≤ a.stop) (hb : b.start ≤ b.stop)
    (hta0 : a.text ≠ []) (htb0 : b.text ≠ [])
    (hta : stripPy a.text = a.text) (htb : stripPy b.text = b.text) :
    mergeBlocks [a, b] =
      [{ start := min a.start b.start, stop := max a.stop b.stop,
         speaker := a.speaker, text := a.text ++ ' ' :: b.text }] := by
  have hba : b.start = a.stop := by linarith
  have hab : a.start ≤ b.start := by linarith
  have hsort : List.insertionSort leStartR [a, b] = [a, b] := by
    simp [List.insertionSort, List.orderedInsert, leStartR, hab]
  rw [mergeBlocks, hsort]
  have hcond : mergeCond a b := ⟨hspk.symm, by rw [hgap], by rw [hgap]; norm_num⟩
  show mergeLoop a [b] = _
  rw [mergeLoop, if_pos hcond]
  show [mergeInto a b] = _
  have hmin : min a.start b.start = a.start := min_eq_left hab
  have hmax : max a.stop b.stop = b.stop := max_eq_right (by linarith)
  simp [mergeInto, hmin, hmax, stripPy_append_word hta0 htb0 hta htb]

/-- Witness for C3: `[0,1] "hi"` and `[1,2] "yo"`, same speaker, gap 0. -/
theorem c3_zero_gap_merge_witness :
    mergeBlocks [⟨0, 1, "S", "hi".toList⟩, ⟨1, 2, "S", "yo".toList⟩] =
      [{ start := min (0 : ℚ) 1, stop := max (1 : ℚ) 2,
         speaker := "S", text := "hi".toList ++ ' ' :: "yo".toList }] :=
  c3_zero_gap_merge _ _ rfl (by decide) (by decide) (by decide) (by decide) (by decide)
    (by decide) (by decide)

/- ------------------------------------------------------------------ -/
/- Merge-scan lemmas, and claims C4, C6, C7.                           -/
/- ------------------------------------------------------------------ -/

/-- Adjacent kept segments never satisfy the merge condition. -/
def noMerge (a b : RawSeg) : Prop := ¬ mergeCond a b

instance (a b : RawSeg) : Decidable (noMerge a b) :=
  inferInstanceAs (Decidable (¬ mergeCond a b))

/-- The first output of a merge scan keeps the open segment's start and
speaker (only its end and text can change, by merging). -/
theorem mergeLoop_head : ∀ (rest : List RawSeg) (last : RawSeg),
    ∃ h t, mergeLoop last rest = h :: t ∧ h.start = last.start ∧ h.speaker = last.speaker
  | [], last => ⟨last, [], rfl, rfl, rfl⟩
  | seg :: rest, last => by
    rw [mergeLoop]
    by_cases hc : mergeCond last seg
    · rw [if_pos hc]
      obtain ⟨h, t, heq, hs, hk⟩ := mergeLoop_head rest (mergeInto last seg)
      exact ⟨h, t, heq, hs, hk⟩
    · rw [if_neg hc]
      exact ⟨last, mergeLoop seg rest, rfl, rfl, rfl⟩

/-- Every output of a merge scan starts where one of its inputs starts. -/
theorem mergeLoop_mem_start : ∀ (rest : List RawSeg) (last : RawSeg),
    ∀ m ∈ mergeLoop last rest, ∃ x ∈ last :: rest, m.start = x.start
  | [], last => by
    intro m hm
    rw [mergeLoop] at hm
    simp at hm
    exact ⟨last, by simp, by rw [hm]⟩
  | seg :: rest, last => by
    intro m hm
    rw [mergeLoop] at hm
    by_cases hc : mergeCond last seg
    · rw [if_pos hc] at hm
      obtain ⟨x, hx, he⟩ := mergeLoop_mem_start rest (mergeInto last seg) m hm
      cases List.mem_cons.mp hx with
      | inl h1 => exact ⟨last, by simp, by rw [he, h1]; rfl⟩
      | inr h2 => exact ⟨x, by simp [h2], he⟩
    · rw [if_neg hc] at hm
      cases List.mem_cons.mp hm with
      | inl h1 => exact ⟨last, by simp, by rw [h1]⟩
      | inr h2 =>
        obtain ⟨x, hx, he⟩ := mergeLoop_mem_start rest seg m h2
        cases List.mem_cons.mp hx with
        | inl h3 => exact ⟨seg, by simp, by rw [he, h3]⟩
        | inr h4 => exact ⟨x, by simp [h4], he⟩

/-- A merge scan of a sorted block list is sorted by start. -/
theorem mergeLoop_sorted : ∀ (rest : List RawSeg) (last : RawSeg),
    List.Pairwise leStartR (last :: rest) → List.Pairwise leStartR (mergeLoop last rest)
  | [], _ => fun _ => List.pairwise_singleton _ _
  | seg :: rest, last => by
    intro hp
    have hp1 : ∀ x ∈ seg :: rest, leStartR last x := (List.pairwise_cons.mp hp).1
    have hp2 : List.Pairwise leStartR (seg :: rest) := (List.pairwise_cons.mp hp).2
    rw [mergeLoop]
    by_cases hc : mergeCond last seg
    · rw [if_pos hc]
      apply mergeLoop_sorted rest (mergeInto last seg)
      rw [List.pairwise_cons]
      exact ⟨fun x hx => hp1 x (by simp [hx]), (List.pairwise_cons.mp hp2).2⟩
    · rw [if_neg hc]
      rw [List.pairwise_cons]
      refine ⟨fun m hm => ?_, mergeLoop_sorted rest seg hp2⟩
      obtain ⟨x, hx, he⟩ := mergeLoop_mem_start rest seg m hm
      have hlx := hp1 x hx
      unfold leStartR at hlx ⊢
      rw [he]
      exact hlx

/-- Adjacent outputs of a merge scan never satisfy the merge condition. -/
theorem mergeLoop_chain : ∀ (rest : List RawSeg) (last : RawSeg),
    List.Chain' noMerge (mergeLoop last rest)
  | [], _ => List.chain'_singleton _
  | seg :: rest, last => by
    rw [mergeLoop]
    by_cases hc : mergeCond last seg
    · rw [if_pos hc]
      exact mergeLoop_chain rest (mergeInto last seg)
    · rw [if_neg hc]
      obtain ⟨h, t, heq, hs, hk⟩ := mergeLoop_head rest seg
      rw [heq, List.chain'_cons]
      constructor
      · intro hcond
        obtain ⟨c1, c2, c3⟩ := hcond
        exact hc ⟨hk.symm.trans c1, by rw [← hs]; exact c2, by rw [← hs]; exact c3⟩
      · rw [← heq]
        exact mergeLoop_chain rest seg

/-- BlockMerger output is sorted (non-strictly) by start. -/
theorem mergeBlocks_sorted (segs : List RawSeg) :
    List.Pairwise leStartR (mergeBlocks segs) := by
  unfold mergeBlocks
  rcases h : segs.insertionSort leStartR with _ | ⟨a, rest⟩
  · exact List.Pairwise.nil
  · have hs := List.sorted_insertionSort leStartR segs
    rw [h] at hs
    exact mergeLoop_sorted rest a hs

/-- No adjacent pair of BlockMerger's output satisfies the merge
condition. -/
theorem mergeBlocks_chain (segs : List RawSeg) :
    List.Chain' noMerge (mergeBlocks segs) := by
  unfold mergeBlocks
  rcases h : segs.insertionSort leStartR with _ | ⟨a, rest⟩
  · exact List.chain'_nil
  · exact mergeLoop_chain rest a

/-- A merge scan with no mergeable adjacent pair changes nothing. -/
theorem mergeLoop_no_merge : ∀ (rest : List RawSeg) (last : RawSeg),
    List.Chain' noMerge (last :: rest) → mergeLoop last rest = last :: rest
  | [], _ => fun _ => rfl
  | seg :: rest, last => fun h => by
    rw [mergeLoop, if_neg ((List.chain'_cons.mp h).1),
      mergeLoop_no_merge rest seg (List.chain'_cons.mp h).2]

/-- BlockMerger is the identity on sorted inputs with no mergeable
adjacent pair. -/
theorem mergeBlocks_eq_self (l : List RawSeg) (hs : List.Pairwise leStartR l)
    (hc : List.Chain' noMerge l) : mergeBlocks l = l := by
  unfold mergeBlocks
  rw [List.Sorted.insertionSort_eq hs]
  cases l with
  | nil => rfl
  | cons a rest => exact mergeLoop_no_merge rest a hc

/-- Claim C6, amended: every BlockMerger output is sorted by start
(non-strictly: inputs sharing a start stay tied) and contains no two
directly adjacent entries with identical speaker label separated by a gap
in `[0, 0.75]` (a negative gap — overlapping same-speaker segments — is
not a merge candidate in the source and can survive adjacently). -/
theorem c6_merged_invariants (segs : List RawSeg) :
    List.Pairwise leStartR (mergeBlocks segs) ∧
      List.Chain' noMerge (mergeBlocks segs) :=
  ⟨mergeBlocks_sorted segs, mergeBlocks_chain segs⟩

/-- Counterexample to C6 as stated: merging the raw segments
`[0,5] S0 "x"` and `[0,2] S0 "y"` (same speaker, overlapping — as
overlapping diarization turns produce) keeps both: the output is neither
strictly ordered by start (both start at 0) nor free of adjacent
same-speaker pairs with gap `≤ 0.75` (the gap is `-5 ≤ 0.75`). -/
theorem c6_merged_invariants_counterexample :
    mergeBlocks [⟨0, 5, "S0", ['x']⟩, ⟨0, 2, "S0", ['y']⟩] =
        [⟨0, 5, "S0", ['x']⟩, ⟨0, 2, "S0", ['y']⟩] ∧
      ¬ List.Pairwise (fun a b : RawSeg => a.start < b.start)
          (mergeBlocks [⟨0, 5, "S0", ['x']⟩, ⟨0, 2, "S0", ['y']⟩]) ∧
      ¬ List.Chain' (fun a b : RawSeg => ¬ (b.speaker = a.speaker ∧ b.start - a.stop ≤ 3/4))
          (mergeBlocks [⟨0, 5, "S0", ['x']⟩, ⟨0, 2, "S0", ['y']⟩]) := by
  refine ⟨by decide, by decide, fun h => ?_⟩
  rw [show mergeBlocks [⟨0, 5, "S0", ['x']⟩, ⟨0, 2, "S0", ['y']⟩] =
      [⟨0, 5, "S0", ['x']⟩, ⟨0, 2, "S0", ['y']⟩] from by decide] at h
  exact (List.chain'_cons.mp h).1 (by decide)

/-- Claim C7, amended: BlockMerger is the identity on every sequence that
is sorted by start and has no adjacent same-speaker pair with gap in
`[0, 0.75]`; in particular it is idempotent on every input. -/
theorem c7_merge_idempotent :
    (∀ l : List RawSeg, List.Pairwise leStartR l → List.Chain' noMerge l →
        mergeBlocks l = l) ∧
      ∀ l : List RawSeg, mergeBlocks (mergeBlocks l) = mergeBlocks l := by
  refine ⟨fun l hs hc => mergeBlocks_eq_self l hs hc, fun l => ?_⟩
  exact mergeBlocks_eq_self _ (mergeBlocks_sorted l) (mergeBlocks_chain l)

/-- Witness for C7 (amended): a sorted two-block no-merge-candidate list is
returned unchanged, and a merge of a mergeable pair is idempotent. -/
theorem c7_merge_idempotent_witness :
    List.Pairwise leStartR [⟨0, 1, "S0", ['x']⟩, (⟨5, 6, "S1", ['y']⟩ : RawSeg)] ∧
      List.Chain' noMerge [⟨0, 1, "S0", ['x']⟩, (⟨5, 6, "S1", ['y']⟩ : RawSeg)] ∧
      mergeBlocks [⟨0, 1, "S0", ['x']⟩, (⟨5, 6, "S1", ['y']⟩ : RawSeg)] =
        [⟨0, 1, "S0", ['x']⟩, (⟨5, 6, "S1", ['y']⟩ : RawSeg)] ∧
      mergeBlocks (mergeBlocks [⟨0, 1, "S0", ['x']⟩, (⟨1, 2, "S0", ['z']⟩ : RawSeg)]) =
        mergeBlocks [⟨0, 1, "S0", ['x']⟩, (⟨1, 2, "S0", ['z']⟩ : RawSeg)] := by
  have hp : List.Pairwise leStartR [⟨0, 1, "S0", ['x']⟩, (⟨5, 6, "S1", ['y']⟩ : RawSeg)] := by
    decide
  have hch : List.Chain' noMerge [⟨0, 1, "S0", ['x']⟩, (⟨5, 6, "S1", ['y']⟩ : RawSeg)] :=
    List.chain'_cons.mpr ⟨by decide, List.chain'_singleton _⟩
  exact ⟨hp, hch, c7_merge_idempotent.1 _ hp hch, c7_merge_idempotent.2 _⟩

/-- Counterexample to C7 as stated: an unsorted list with no adjacent
mergeable pair (the adjacent gap is negative) is still re-sorted by
BlockMerger, so it is not returned unchanged. -/
theorem c7_merge_idempotent_counterexample :
    List.Chain' noMerge [⟨5, 6, "S0", ['x']⟩, (⟨0, 1, "S0", ['y']⟩ : RawSeg)] ∧
      mergeBlocks [⟨5, 6, "S0", ['x']⟩, (⟨0, 1, "S0", ['y']⟩ : RawSeg)] ≠
        [⟨5, 6, "S0", ['x']⟩, (⟨0, 1, "S0", ['y']⟩ : RawSeg)] :=
  ⟨List.chain'_cons.mpr ⟨by decide, List.chain'_singleton _⟩, by decide⟩

/-- A kept segment of the merge scan together with the raw input segments
that were merged into it (ghost instrumentation for claim C4). -/
structure TracedSeg where
  core : RawSeg
  srcs : List RawSeg
  deriving DecidableEq, Repr

/-- The merge scan of `_merge_blocks`, additionally recording, for each
kept segment, the input segments absorbed into it. -/
def mergeLoopTr : TracedSeg → List RawSeg → List TracedSeg
  | t, [] => [t]
  | t, seg :: rest =>
    if mergeCond t.core seg then mergeLoopTr ⟨mergeInto t.core seg, t.srcs ++ [seg]⟩ rest
    else t :: mergeLoopTr ⟨seg, [seg]⟩ rest

/-- `_merge_blocks` with provenance recording. -/
def mergeBlocksTr (segments : List RawSeg) : List TracedSeg :=
  match segments.insertionSort leStartR with
  | [] => []
  | a :: rest => mergeLoopTr ⟨a, [a]⟩ rest

/-- Dropping the provenance recovers the plain merge scan. -/
theorem mergeLoopTr_erase : ∀ (rest : List RawSeg) (t : TracedSeg),
    (mergeLoopTr t rest).map TracedSeg.core = mergeLoop t.core rest
  | [], _ => rfl
  | seg :: rest, t => by
    rw [mergeLoopTr, mergeLoop]
    by_cases hc : mergeCond t.core seg
    · rw [if_pos hc, if_pos hc]
      exact mergeLoopTr_erase rest _
    · rw [if_neg hc, if_neg hc]
      simp [mergeLoopTr_erase rest ⟨seg, [seg]⟩]

/-- Invariant of the traced scan: every kept segment's recorded sources are
input segments all carrying the kept segment's speaker label. -/
theorem mergeLoopTr_inv : ∀ (rest : List RawSeg) (t : TracedSeg) (init : List RawSeg),
    t.srcs ≠ [] → (∀ s ∈ t.srcs, s ∈ init ∧ s.speaker = t.core.speaker) →
    (∀ s ∈ rest, s ∈ init) →
    ∀ m ∈ mergeLoopTr t rest, m.srcs ≠ [] ∧
      ∀ s ∈ m.srcs, s ∈ init ∧ s.speaker = m.core.speaker
  | [], t, init => by
    intro h0 hinv _ m hm
    rw [mergeLoopTr] at hm
    simp at hm
    subst hm
    exact ⟨h0, hinv⟩
  | seg :: rest, t, init => by
    intro h0 hinv hrest m hm
    rw [mergeLoopTr] at hm
    by_cases hc : mergeCond t.core seg
    · rw [if_pos hc] at hm
      refine mergeLoopTr_inv rest _ init (by simp) ?_
        (fun s hs => hrest s (by simp [hs])) m hm
      intro s hs
      rcases List.mem_append.mp hs with h1 | h2
      · exact hinv s h1
      · simp at h2
        subst h2
        exact ⟨hrest s (by simp), hc.1⟩
    · rw [if_neg hc] at hm
      rcases List.mem_cons.mp hm with h1 | h2
      · subst h1
        exact ⟨h0, hinv⟩
      · refine mergeLoopTr_inv rest ⟨seg, [seg]⟩ init (by simp) ?_
          (fun s hs => hrest s (by simp [hs])) m h2
        intro s hs
        simp at hs
        subst hs
        exact ⟨hrest s (by simp), rfl⟩

/-- Claim C4: the traced merge refines BlockMerger, and every output
segment was built only from input segments carrying its own speaker label —
segments with different labels never merge, whatever the gap. -/
theorem c4_no_cross_speaker_merge (segs : List RawSeg) :
    mergeBlocks segs = (mergeBlocksTr segs).map TracedSeg.core ∧
    ∀ m ∈ mergeBlocksTr segs, m.srcs ≠ [] ∧
      ∀ s ∈ m.srcs, s ∈ segs ∧ s.speaker = m.core.speaker := by
  constructor
  · unfold mergeBlocks mergeBlocksTr
    rcases h : segs.insertionSort leStartR with _ | ⟨a, rest⟩
    · rfl
    · rw [mergeLoopTr_erase]
  · intro m hm
    unfold mergeBlocksTr at hm
    generalize h : segs.insertionSort leStartR = l at hm
    cases l with
    | nil => exact absurd hm (List.not_mem_nil m)
    | cons a rest =>
      have hmem : ∀ s ∈ a :: rest, s ∈ segs := by
        intro s hs
        exact (List.perm_insertionSort leStartR segs).mem_iff.mp (by rw [h]; exact hs)
      refine mergeLoopTr_inv rest ⟨a, [a]⟩ segs (by simp) ?_
        (fun s hs => hmem s (by simp [hs])) m hm
      intro s hs
      simp at hs
      subst hs
      exact ⟨hmem _ (by simp), rfl⟩

/-- Witness for C4: two different-speaker blocks stay unmerged, each traced
to its own single source. -/
theorem c4_no_cross_speaker_merge_witness :
    mergeBlocks [⟨0, 1, "A", ['x']⟩, (⟨2, 3, "B", ['y']⟩ : RawSeg)] =
        (mergeBlocksTr [⟨0, 1, "A", ['x']⟩, (⟨2, 3, "B", ['y']⟩ : RawSeg)]).map
          TracedSeg.core ∧
      ((⟨⟨0, 1, "A", ['x']⟩, [⟨0, 1, "A", ['x']⟩]⟩ : TracedSeg).srcs ≠ [] ∧
        ∀ s ∈ (⟨⟨0, 1, "A", ['x']⟩, [⟨0, 1, "A", ['x']⟩]⟩ : TracedSeg).srcs,
          s ∈ [⟨0, 1, "A", ['x']⟩, (⟨2, 3, "B", ['y']⟩ : RawSeg)] ∧
            s.speaker = (⟨⟨0, 1, "A", ['x']⟩, [⟨0, 1, "A", ['x']⟩]⟩ : TracedSeg).core.speaker) :=
  ⟨(c4_no_cross_speaker_merge _).1,
   (c4_no_cross_speaker_merge [⟨0, 1, "A", ['x']⟩, (⟨2, 3, "B", ['y']⟩ : RawSeg)]).2 _
     (by decide)⟩

/- ------------------------------------------------------------------ -/
/- Claim C5: confidence attachment.                                    -/
/- ------------------------------------------------------------------ -/

/-- `round(·, 3)` is monotone. -/
theorem round3_mono {x y : ℚ} (h : x ≤ y) : round3 x ≤ round3 y := by
  rw [round3_eq_round, round3_eq_round]
  have h1 : round (x * 1000) ≤ round (y * 1000) := by
    rw [round_eq, round_eq]
    exact Int.floor_mono (by linarith)
  have h2 : ((round (x * 1000) : ℤ) : ℚ) ≤ ((round (y * 1000) : ℤ) : ℚ) := by
    exact_mod_cast h1
  exact (div_le_div_iff_of_pos_right (by norm_num)).mpr h2

/-- The overlap of the recognition segment `a` with the span `[s, e]`
(the quantity `_best_diar_for_asr` maximises). -/
abbrev ovl (s e : ℚ) (a : AsrSeg) : ℚ := overlapQ s e a.start a.stop

/-- Raw aligned segments are well-formed when the diarization intervals
are. -/
theorem w2dLoop_wf (ws : List WordSeg) :
    ∀ (ds : List DiarSeg), (∀ d ∈ ds, d.start ≤ d.stop) →
      ∀ r ∈ w2dLoop ws ds, r.start ≤ r.stop := by
  intro ds
  induction ds with
  | nil =>
    intro _ r hr
    exact absurd hr (List.not_mem_nil r)
  | cons d rest ih =>
    intro hd r hr
    simp only [w2dLoop] at hr
    by_cases hcase : ws.filter (fun w => decide (overlapsWD w d)) = []
    · rw [if_pos hcase] at hr
      exact ih (fun x hx => hd x (by simp [hx])) r hr
    · rw [if_neg hcase] at hr
      rcases List.mem_cons.mp hr with h1 | h2
      · rw [h1]
        exact round3_mono (hd d (by simp))
      · exact ih (fun x hx => hd x (by simp [hx])) r h2

theorem alignW2D_wf (ws : List WordSeg) (ds : List DiarSeg)
    (hd : ∀ d ∈ ds, d.start ≤ d.stop) :
    ∀ r ∈ alignWordsToDiarization ws ds, r.start ≤ r.stop := by
  intro r hr
  unfold alignWordsToDiarization at hr
  by_cases hg : ws = [] ∨ ds = []
  · rw [if_pos hg] at hr
    exact absurd hr (List.not_mem_nil r)
  · rw [if_neg hg] at hr
    refine w2dLoop_wf _ _ ?_ r hr
    intro d hdc
    exact hd d ((List.perm_insertionSort leStartD ds).mem_iff.mp hdc)

/-- The merge scan preserves segment well-formedness: a merge only ever
happens at non-negative gap, so the extended end stays past the start. -/
theorem mergeLoop_wf : ∀ (rest : List RawSeg) (last : RawSeg),
    last.start ≤ last.stop → (∀ s ∈ rest, s.start ≤ s.stop) →
    ∀ m ∈ mergeLoop last rest, m.start ≤ m.stop
  | [], last => by
    intro hlast _ m hm
    rw [mergeLoop] at hm
    simp at hm
    rw [hm]
    exact hlast
  | seg :: rest, last => by
    intro hlast hrest m hm
    rw [mergeLoop] at hm
    by_cases hc : mergeCond last seg
    · rw [if_pos hc] at hm
      refine mergeLoop_wf rest _ ?_ (fun s hs => hrest s (by simp [hs])) m hm
      have h1 := hrest seg (by simp)
      have h2 := hc.2.1
      show last.start ≤ seg.stop
      linarith
    · rw [if_neg hc] at hm
      rcases List.mem_cons.mp hm with h1 | h2
      · rw [h1]
        exact hlast
      · exact mergeLoop_wf rest seg (hrest seg (by simp))
          (fun s hs => hrest s (by simp [hs])) m h2

theorem mergeBlocks_wf (segs : List RawSeg) (h : ∀ s ∈ segs, s.start ≤ s.stop) :
    ∀ m ∈ mergeBlocks segs, m.start ≤ m.stop := by
  intro m hm
  unfold mergeBlocks at hm
  generalize hq : segs.insertionSort leStartR = l at hm
  have hl : ∀ s ∈ l, s.start ≤ s.stop := by
    intro s hs
    exact h s ((List.perm_insertionSort leStartR segs).mem_iff.mp (by rw [hq]; exact hs))
  cases l with
  | nil => exact absurd hm (List.not_mem_nil m)
  | cons a rest =>
    exact mergeLoop_wf rest a (hl a (by simp)) (fun s hs => hl s (by simp [hs])) m hm

/-- If nothing beats the running maximum, the scan of `_best_diar_for_asr`
keeps the incoming candidate. -/
theorem bestLoop_none (s e : ℚ) : ∀ (l : List AsrSeg) (b0 : Option AsrSeg) (v0 : ℚ),
    (∀ a ∈ l, ovl s e a ≤ v0) → bestLoop s e l b0 v0 = b0
  | [], _, _ => fun _ => rfl
  | a :: rest, b0, v0 => fun h => by
    rw [bestLoop]
    rw [if_neg (not_lt.mpr (h a (by simp)))]
    exact bestLoop_none s e rest b0 v0 (fun x hx => h x (by simp [hx]))

/-- If some element beats the running maximum, the scan returns the first
element realising the maximum of the whole list. -/
theorem bestLoop_found (s e : ℚ) : ∀ (l : List AsrSeg) (b0 : Option AsrSeg) (v0 : ℚ),
    (∃ a ∈ l, v0 < ovl s e a) →
    ∃ l1 b l2, l = l1 ++ b :: l2 ∧ bestLoop s e l b0 v0 = some b ∧
      v0 < ovl s e b ∧ (∀ a ∈ l, ovl s e a ≤ ovl s e b) ∧
      (∀ a ∈ l1, ovl s e a < ovl s e b)
  | [], _, _ => by
    intro h
    obtain ⟨a, ha, _⟩ := h
    exact absurd ha (List.not_mem_nil a)
  | a :: rest, b0, v0 => by
    intro h
    by_cases hca : v0 < ovl s e a
    · by_cases hex : ∃ x ∈ rest, ovl s e a < ovl s e x
      · obtain ⟨l1, b, l2, hdec, hres, hvb, hmax, hpre⟩ :=
          bestLoop_found s e rest (some a) (ovl s e a) hex
        refine ⟨a :: l1, b, l2, by rw [hdec]; rfl, ?_, lt_trans hca hvb, ?_, ?_⟩
        · rw [bestLoop, if_pos hca]
          exact hres
        · intro x hx
          rcases List.mem_cons.mp hx with h1 | h2
          · rw [h1]
            exact le_of_lt hvb
          · exact hmax x h2
        · intro x hx
          rcases List.mem_cons.mp hx with h1 | h2
          · rw [h1]
            exact hvb
          · exact hpre x h2
      · push_neg at hex
        refine ⟨[], a, rest, rfl, ?_, hca, ?_, by simp⟩
        · rw [bestLoop, if_pos hca]
          exact bestLoop_none s e rest (some a) (ovl s e a) hex
        · intro x hx
          rcases List.mem_cons.mp hx with h1 | h2
          · rw [h1]
          · exact hex x h2
    · have hex : ∃ x ∈ rest, v0 < ovl s e x := by
        obtain ⟨w, hw, hvw⟩ := h
        rcases List.mem_cons.mp hw with h1 | h2
        · exact absurd (h1 ▸ hvw) hca
        · exact ⟨w, h2, hvw⟩
      obtain ⟨l1, b, l2, hdec, hres, hvb, hmax, hpre⟩ :=
        bestLoop_found s e rest b0 v0 hex
      refine ⟨a :: l1, b, l2, by rw [hdec]; rfl, ?_, hvb, ?_, ?_⟩
      · rw [bestLoop, if_neg hca]
        exact hres
      · intro x hx
        rcases List.mem_cons.mp hx with h1 | h2
        · rw [h1]
          exact le_trans (not_lt.mp hca) (le_of_lt hvb)
        · exact hmax x h2
      · intro x hx
        rcases List.mem_cons.mp hx with h1 | h2
        · rw [h1]
          exact lt_of_le_of_lt (not_lt.mp hca) hvb
        · exact hpre x h2

/-- The clamp in `_confidence_from_whisper` keeps every confidence in
`[0, 1]`. -/
theorem confidenceFromWhisper_mem_unit (b : AsrSeg) :
    (0 : ℝ) ≤ confidenceFromWhisper b ∧ confidenceFromWhisper b ≤ 1 :=
  ⟨le_max_left _ _, max_le zero_le_one (min_le_left _ _)⟩

/-- The property claim C5 asserts of one aligned output segment: its span
is well-formed, its confidence lies in `[0, 1]`, equals `0.5` exactly when
no recognition segment overlaps it positively, and otherwise is the Whisper
confidence of the first recognition segment of maximal overlap. -/
def c5Prop (asr : List AsrSeg) (seg : FinalSeg) : Prop :=
  seg.start ≤ seg.stop ∧
  (0 : ℝ) ≤ seg.confidence ∧ seg.confidence ≤ 1 ∧
  ((∀ a ∈ asr, ovl seg.start seg.stop a ≤ 0) → seg.confidence = 1/2) ∧
  ((∃ a ∈ asr, 0 < ovl seg.start seg.stop a) →
    ∃ l1 b l2, asr = l1 ++ b :: l2 ∧
      (∀ a ∈ asr, ovl seg.start seg.stop a ≤ ovl seg.start seg.stop b) ∧
      (∀ a ∈ l1, ovl seg.start seg.stop a < ovl seg.start seg.stop b) ∧
      seg.confidence = confidenceFromWhisper b)

/-- Claim C5: for well-formed diarization input, every segment of the
aligner's output satisfies `c5Prop`: `start ≤ end`; confidence in `[0,1]`;
confidence `0.5` iff no recognition segment overlaps positively; otherwise
`clamp(sigmoid(avg_logprob) · (1 − no_speech_prob), 0, 1)` of the
maximal-overlap recognition segment, ties broken by first found. -/
theorem c5_confidence_attachment (asr : List AsrSeg) (diar : List DiarSeg)
    (hd : ∀ d ∈ diar, d.start ≤ d.stop) :
    ∀ seg ∈ align asr diar, c5Prop asr seg := by
  intro seg hseg
  unfold align at hseg
  by_cases hguard : asr = [] ∨ diar = []
  · rw [if_pos hguard] at hseg
    exact absurd hseg (List.not_mem_nil seg)
  rw [if_neg hguard] at hseg
  obtain ⟨m, hm, rfl⟩ := List.mem_map.mp hseg
  have hraw := alignW2D_wf (toWordSegments asr) diar hd
  have hwf : m.start ≤ m.stop := mergeBlocks_wf _ hraw m hm
  show c5Prop asr (attachConfidence asr m)
  unfold c5Prop attachConfidence
  rcases hbest : bestDiarForAsr m.start m.stop asr with _ | b
  · refine ⟨hwf, by norm_num, by norm_num, fun _ => rfl, fun hpos => ?_⟩
    obtain ⟨l1, b, l2, _, hres, _, _, _⟩ := bestLoop_found m.start m.stop asr none 0 hpos
    rw [show bestDiarForAsr m.start m.stop asr = bestLoop m.start m.stop asr none 0
      from rfl] at hbest
    rw [hbest] at hres
    exact absurd hres (by simp)
  · obtain ⟨hb0, hb1⟩ := confidenceFromWhisper_mem_unit b
    refine ⟨hwf, hb0, hb1, fun hz => ?_, fun hpos => ?_⟩
    · have := bestLoop_none m.start m.stop asr none 0 hz
      rw [show bestDiarForAsr m.start m.stop asr = bestLoop m.start m.stop asr none 0
        from rfl] at hbest
      rw [this] at hbest
      exact absurd hbest (by simp)
    · obtain ⟨l1, b', l2, hdec, hres, _, hmax, hpre⟩ :=
        bestLoop_found m.start m.stop asr none 0 hpos
      rw [show bestDiarForAsr m.start m.stop asr = bestLoop m.start m.stop asr none 0
        from rfl] at hbest
      rw [hbest] at hres
      have hbb : b' = b := by
        injection hres.symm
      subst hbb
      exact ⟨l1, b', l2, hdec, hmax, hpre, rfl⟩

/-- Witness for C5: a well-formed diarization interval with no recognition
input (the aligner's guard yields the empty output, and the diarization
hypothesis is discharged concretely). -/
theorem c5_confidence_attachment_witness :
    (∀ d ∈ [(⟨0, 1, "S"⟩ : DiarSeg)], d.start ≤ d.stop) ∧
      ∀ seg ∈ align [] [(⟨0, 1, "S"⟩ : DiarSeg)], c5Prop [] seg :=
  ⟨by decide, c5_confidence_attachment [] [(⟨0, 1, "S"⟩ : DiarSeg)] (by decide)⟩

/- ------------------------------------------------------------------ -/
/- Claim C8: role inference by total speaking time.                    -/
/- ------------------------------------------------------------------ -/

/-- `bump` keeps the key list unchanged when the key is present and
appends it otherwise (Python-dict insertion order). -/
theorem bump_keys : ∀ (m : List (String × ℚ)) (k : String) (v : ℚ),
    (bump m k v).map Prod.fst =
      if k ∈ m.map Prod.fst then m.map Prod.fst else m.map Prod.fst ++ [k]
  | [], k, v => by simp [bump]
  | (k', x) :: t, k, v => by
    rw [bump]
    by_cases hk : k' = k
    · rw [if_pos hk]
      subst hk
      simp
    · rw [if_neg hk]
      rw [List.map_cons, List.map_cons, bump_keys t k v]
      by_cases hmem : k ∈ t.map Prod.fst
      · rw [if_pos hmem, if_pos (by simp [hmem])]
      · rw [if_neg hmem, if_neg ?_]
        · rfl
        · intro hc
          rcases List.mem_cons.mp hc with h | h
          · exact hk h.symm
          · exact hmem h

theorem foldl_bump_keys_nodup : ∀ (segs : List FinalSeg) (m : List (String × ℚ)),
    (m.map Prod.fst).Nodup →
    ((segs.foldl (fun acc seg => bump acc seg.speaker (seg.stop - seg.start)) m).map
      Prod.fst).Nodup
  | [], _ => fun h => h
  | seg :: rest, m => fun h => by
    rw [List.foldl_cons]
    apply foldl_bump_keys_nodup rest
    rw [bump_keys]
    by_cases hmem : seg.speaker ∈ m.map Prod.fst
    · rw [if_pos hmem]
      exact h
    · rw [if_neg hmem]
      simp [List.nodup_append, h, hmem]

/-- The speaking-time table has one entry per speaker. -/
theorem timeMap_keys_nodup (segs : List FinalSeg) :
    ((timeMap segs).map Prod.fst).Nodup :=
  foldl_bump_keys_nodup segs [] (by simp)

/-- In a table with distinct keys, entries are determined by their key. -/
theorem eq_of_mem_keys_nodup : ∀ {m : List (String × ℚ)},
    (m.map Prod.fst).Nodup → ∀ {p q : String × ℚ}, p ∈ m → q ∈ m → p.1 = q.1 → p = q := by
  intro m
  induction m with
  | nil =>
    intro _ p q hp _ _
    exact absurd hp (List.not_mem_nil p)
  | cons a t ih =>
    intro hn p q hp hq h
    rw [List.map_cons] at hn
    have hna := List.nodup_cons.mp hn
    rcases List.mem_cons.mp hp with hp1 | hp2
    · rcases List.mem_cons.mp hq with hq1 | hq2
      · rw [hp1, hq1]
      · exfalso
        apply hna.1
        rw [show a.1 = q.1 from by rw [← hp1]; exact h]
        exact List.mem_map_of_mem Prod.fst hq2
    · rcases List.mem_cons.mp hq with hq1 | hq2
      · exfalso
        apply hna.1
        rw [show a.1 = p.1 from by rw [← hq1]; exact h.symm]
        exact List.mem_map_of_mem Prod.fst hp2
      · exact ih hna.2 hp2 hq2 h

/-- In a descending-sorted duplicate-free table, an entry strictly greater
than every other entry is the head. -/
theorem desc_head {tm : List (String × ℚ)} (hsort : List.Pairwise leTimeDesc tm)
    (hn : tm.Nodup) (hkn : (tm.map Prod.fst).Nodup)
    {s : String} {v : ℚ} (hmem : (s, v) ∈ tm)
    (hmax : ∀ p ∈ tm, p.1 ≠ s → p.2 < v) :
    ∃ r, tm = (s, v) :: r := by
  cases tm with
  | nil => exact absurd hmem (List.not_mem_nil _)
  | cons p r =>
    rcases List.mem_cons.mp hmem with h1 | h2
    · exact ⟨r, by rw [← h1]⟩
    · by_cases hps : p.1 = s
      · have hpe : p = (s, v) :=
          eq_of_mem_keys_nodup hkn (List.mem_cons_self p r) (List.mem_cons_of_mem p h2)
            (by rw [hps])
        have hnr : p ∉ r := (List.nodup_cons.mp hn).1
        rw [hpe] at hnr
        exact absurd h2 hnr
      · have hlt : p.2 < v := hmax p (List.mem_cons_self p r) hps
        have hge : leTimeDesc p (s, v) := (List.pairwise_cons.mp hsort).1 (s, v) h2
        exact absurd hge (not_le.mpr hlt)

/-- The totals map the role computation of `build_conversation` ranks:
`time_map` over the sorted segments. -/
def speakerTotals (segments : List FinalSeg) : List (String × ℚ) :=
  timeMap (segments.insertionSort leStartF)

/-- The role table `build_conversation` derives for a segment list. -/
def rolesOf (segments : List FinalSeg) : List (String × String) :=
  rolesFor (segments.insertionSort leStartF)

/-- If `s1` has strictly the largest total and `s2` strictly the largest
among the rest, the role table is exactly `[(s1, PRIMARY), (s2,
SECONDARY)]`. -/
theorem rolesFor_top_two (gsegs : List FinalSeg) (s1 s2 : String) (v1 v2 : ℚ)
    (h1 : (s1, v1) ∈ timeMap gsegs) (h2 : (s2, v2) ∈ timeMap gsegs)
    (hne : s2 ≠ s1) (h12 : v2 < v1)
    (hmax2 : ∀ p ∈ timeMap gsegs, p.1 ≠ s1 → p.1 ≠ s2 → p.2 < v2) :
    rolesFor gsegs = [(s1, PRIMARY), (s2, SECONDARY)] := by
  have hperm := List.perm_insertionSort leTimeDesc (timeMap gsegs)
  have hkn : ((timeMap gsegs).map Prod.fst).Nodup := timeMap_keys_nodup gsegs
  have hkst : (((timeMap gsegs).insertionSort leTimeDesc).map Prod.fst).Nodup :=
    ((hperm.map Prod.fst).nodup_iff).mpr hkn
  have hnst : ((timeMap gsegs).insertionSort leTimeDesc).Nodup := hkst.of_map
  have hsort : List.Pairwise leTimeDesc ((timeMap gsegs).insertionSort leTimeDesc) :=
    List.sorted_insertionSort leTimeDesc (timeMap gsegs)
  have hmax1 : ∀ p ∈ (timeMap gsegs).insertionSort leTimeDesc, p.1 ≠ s1 → p.2 < v1 := by
    intro p hp hps
    have hptm : p ∈ timeMap gsegs := hperm.mem_iff.mp hp
    by_cases hp2 : p.1 = s2
    · have hpe : p = (s2, v2) := eq_of_mem_keys_nodup hkn hptm h2 (by rw [hp2])
      rw [hpe]
      exact h12
    · exact lt_trans (hmax2 p hptm hps hp2) h12
  obtain ⟨r, hr⟩ := desc_head hsort hnst hkst (hperm.mem_iff.mpr h1) hmax1
  have hrsort : List.Pairwise leTimeDesc r := by
    have h' := hsort
    rw [hr] at h'
    exact (List.pairwise_cons.mp h').2
  have hrkn : (r.map Prod.fst).Nodup ∧ s1 ∉ r.map Prod.fst := by
    have h' := hkst
    rw [hr, List.map_cons] at h'
    have h'' := List.nodup_cons.mp h'
    exact ⟨h''.2, h''.1⟩
  have hrn : r.Nodup := hrkn.1.of_map
  have hs2r : (s2, v2) ∈ r := by
    have hin : (s2, v2) ∈ (timeMap gsegs).insertionSort leTimeDesc := hperm.mem_iff.mpr h2
    rw [hr] at hin
    rcases List.mem_cons.mp hin with he | hh
    · exact absurd (congrArg Prod.fst he) hne
    · exact hh
  have hmax2' : ∀ p ∈ r, p.1 ≠ s2 → p.2 < v2 := by
    intro p hp hps2
    have hpst : p ∈ (timeMap gsegs).insertionSort leTimeDesc := by
      rw [hr]
      exact List.mem_cons_of_mem _ hp
    have hptm : p ∈ timeMap gsegs := hperm.mem_iff.mp hpst
    have hps1 : p.1 ≠ s1 := by
      intro hcon
      exact hrkn.2 (hcon ▸ List.mem_map_of_mem Prod.fst hp)
    exact hmax2 p hptm hps1 hps2
  obtain ⟨r2, hr2⟩ := desc_head hrsort hrn hrkn.1 hs2r hmax2'
  unfold rolesFor
  rw [hr, hr2]

/-- With exactly one speaker in the table, that speaker is PRIMARY. -/
theorem rolesFor_single (gsegs : List FinalSeg) (s : String) (v : ℚ)
    (h : timeMap gsegs = [(s, v)]) : rolesFor gsegs = [(s, PRIMARY)] := by
  unfold rolesFor
  rw [h]
  rfl

/-- Every turn's role is the role-table lookup of its raw speaker label
(falling back to the raw label itself). -/
theorem convLoop_roles (roles : List (String × String)) :
    ∀ (rest : List FinalSeg) (cur : Turn),
      cur.speaker = ((roles.lookup cur.speaker_raw).getD cur.speaker_raw) →
      ∀ t ∈ convLoop roles cur rest,
        t.speaker = ((roles.lookup t.speaker_raw).getD t.speaker_raw)
  | [], cur => by
    intro hcur t ht
    rw [convLoop] at ht
    simp at ht
    rw [ht]
    exact hcur
  | seg :: rest, cur => by
    intro hcur t ht
    rw [convLoop] at ht
    by_cases hc : cur.speaker_raw = seg.speaker ∧ seg.start - cur.stop ≤ 3/4
    · rw [if_pos hc] at ht
      exact convLoop_roles roles rest
        { cur with stop := seg.stop, text := cur.text ++ ' ' :: seg.text } hcur t ht
    · rw [if_neg hc] at ht
      rcases List.mem_cons.mp ht with h1 | h2
      · rw [h1]
        exact hcur
      · exact convLoop_roles roles rest (mkTurn roles seg) rfl t h2

theorem buildConversation_roles (segs : List FinalSeg) :
    ∀ t ∈ buildConversationSegments segs,
      t.speaker = (((rolesOf segs).lookup t.speaker_raw).getD t.speaker_raw) := by
  intro t ht
  unfold buildConversationSegments at ht
  unfold rolesOf
  generalize hq : segs.insertionSort leStartF = l at ht ⊢
  cases l with
  | nil => exact absurd ht (List.not_mem_nil t)
  | cons s rest => exact convLoop_roles _ rest (mkTurn _ s) rfl t ht

/-- The concrete three-speaker scenario of claim C8 (40s / 25s / 10s of
speaking time). -/
def c8Demo : List FinalSeg :=
  [⟨0, 40, "S0", ['a'], 0, none, none⟩,
   ⟨50, 75, "S1", ['b'], 0, none, none⟩,
   ⟨80, 90, "S2", ['c'], 0, none, none⟩]

/-- Claim C8: role inference.  First conjunct: the concrete 40s/25s/10s
scenario — the most-speaking speaker's turn carries PRIMARY (`"CUSTOMER"`
in the source), the second SECONDARY (`"AGENT"`), the third its raw label.
Second conjunct: in general, a speaker with strictly the most total
speaking time is PRIMARY and a strict second is SECONDARY, while all other
speakers' turns carry their raw labels.  Third conjunct: with exactly one
speaker in the totals table, that speaker is PRIMARY. -/
theorem c8_role_inference :
    buildConversationSegments c8Demo =
      [⟨0, 40, PRIMARY, "S0", ['a']⟩, ⟨50, 75, SECONDARY, "S1", ['b']⟩,
       ⟨80, 90, "S2", "S2", ['c']⟩] ∧
    (∀ (segs : List FinalSeg) (s1 s2 : String) (v1 v2 : ℚ),
      (s1, v1) ∈ speakerTotals segs → (s2, v2) ∈ speakerTotals segs →
      s2 ≠ s1 → v2 < v1 →
      (∀ p ∈ speakerTotals segs, p.1 ≠ s1 → p.1 ≠ s2 → p.2 < v2) →
      rolesOf segs = [(s1, PRIMARY), (s2, SECONDARY)] ∧
      ∀ t ∈ buildConversationSegments segs,
        (t.speaker_raw = s1 → t.speaker = PRIMARY) ∧
        (t.speaker_raw = s2 → t.speaker = SECONDARY) ∧
        (t.speaker_raw ≠ s1 → t.speaker_raw ≠ s2 → t.speaker = t.speaker_raw)) ∧
    (∀ (segs : List FinalSeg) (s : String) (v : ℚ),
      speakerTotals segs = [(s, v)] →
      rolesOf segs = [(s, PRIMARY)] ∧
      ∀ t ∈ buildConversationSegments segs,
        (t.speaker_raw = s → t.speaker = PRIMARY) ∧
        (t.speaker_raw ≠ s → t.speaker = t.speaker_raw)) := by
  refine ⟨by decide, ?_, ?_⟩
  · intro segs s1 s2 v1 v2 h1 h2 hne h12 hmax2
    have hroles : rolesOf segs = [(s1, PRIMARY), (s2, SECONDARY)] :=
      rolesFor_top_two (segs.insertionSort leStartF) s1 s2 v1 v2 h1 h2 hne h12 hmax2
    refine ⟨hroles, ?_⟩
    intro t ht
    have hlink := buildConversation_roles segs t ht
    rw [hroles] at hlink
    refine ⟨?_, ?_, ?_⟩
    · intro hraw
      rw [hlink, hraw]
      simp [List.lookup]
    · intro hraw
      rw [hlink, hraw]
      have e1 : (s2 == s1) = false := beq_eq_false_iff_ne.mpr hne
      simp [List.lookup, e1]
    · intro hr1 hr2
      rw [hlink]
      have e1 : (t.speaker_raw == s1) = false := beq_eq_false_iff_ne.mpr hr1
      have e2 : (t.speaker_raw == s2) = false := beq_eq_false_iff_ne.mpr hr2
      simp [List.lookup, e1, e2]
  · intro segs s v h
    have hroles : rolesOf segs = [(s, PRIMARY)] :=
      rolesFor_single (segs.insertionSort leStartF) s v h
    refine ⟨hroles, ?_⟩
    intro t ht
    have hlink := buildConversation_roles segs t ht
    rw [hroles] at hlink
    constructor
    · intro hraw
      rw [hlink, hraw]
      simp [List.lookup]
    · intro hraw
      rw [hlink]
      have e1 : (t.speaker_raw == s) = false := beq_eq_false_iff_ne.mpr hraw
      simp [List.lookup, e1]

/-- Witness for C8: the general top-two clause applied to the concrete
40s/25s/10s scenario. -/
theorem c8_role_inference_witness :
    rolesOf c8Demo = [("S0", PRIMARY), ("S1", SECONDARY)] :=
  (c8_role_inference.2.1 c8Demo "S0" "S1" 40 25 (by decide) (by decide) (by decide)
    (by decide) (by decide)).1

/- ------------------------------------------------------------------ -/
/- Claim C9: empty inputs degrade to empty outputs, never exceptions.  -/
/- ------------------------------------------------------------------ -/

/-- Claim C9: with an empty diarization list (or an empty normalized
recognition list), alignment returns the empty speaker-segment list — the
embedding is a total function, the source logs a warning and raises
nothing — and the conversation builder and both stats computations return
empty results on the empty inputs instead of failing. -/
theorem c9_empty_inputs_propagate :
    (∀ asr : List AsrSeg, align asr [] = []) ∧
    (∀ diar : List DiarSeg, align [] diar = []) ∧
    (∀ asr : List AsrSeg, build_conversation asr [] = []) ∧
    buildConversationSegments [] = [] ∧
    computeSpeakerStats [] = [] ∧
    (∀ ds : List DiarSeg, computeConversationStats [] ds = none) ∧
    (∀ ss : List FinalSeg, computeConversationStats ss [] = none) := by
  have ha : ∀ asr : List AsrSeg, align asr [] = [] := by
    intro asr
    rw [align, if_pos (Or.inr rfl)]
  refine ⟨ha, ?_, ?_, rfl, rfl, fun _ => rfl, ?_⟩
  · intro diar
    rw [align, if_pos (Or.inl rfl)]
  · intro asr
    rw [build_conversation, ha asr]
    rfl
  · intro ss
    cases ss <;> rfl

/- ------------------------------------------------------------------ -/
/- Claim C10: conversation stats use positional diarization bounds.    -/
/- ------------------------------------------------------------------ -/

/-- Claim C10: for non-empty inputs, `compute_conversation_stats` takes
`conversation_start` from the positionally first diarization entry and
`conversation_end` from the positionally last entry, with no sorting and no
min/max, and `total_duration` is their difference — so an unsorted
diarization input yields a negative duration (second conjunct: a concrete
such input). -/
theorem c10_conversation_stats_bounds :
    (∀ (s0 : FinalSeg) (ss' : List FinalSeg) (d0 : DiarSeg) (ds' : List DiarSeg),
      ∃ st, computeConversationStats (s0 :: ss') (d0 :: ds') = some st ∧
        st.conversation_start = d0.start ∧
        st.conversation_end = (ds'.getLastD d0).stop ∧
        st.total_duration = st.conversation_end - st.conversation_start) ∧
    ∃ st, computeConversationStats [⟨0, 1, "S", "hi".toList, 0, none, none⟩]
        [⟨10, 11, "A"⟩, ⟨0, 1, "B"⟩] = some st ∧ st.total_duration < 0 := by
  constructor
  · intro s0 ss' d0 ds'
    exact ⟨_, rfl, rfl, rfl, rfl⟩
  · refine ⟨_, rfl, ?_⟩
    decide

end PipelineDefs
